import Mathlib

/-!
Verification of the remote directory synchronization engine of `workflow-bin`.

The development shallowly embeds the two core source files:

* `src/opendal_fs.rs` — `ConcurrentUploadTasks` (push_single_file, push_path,
  push_str, push_str_seq, join) and `sync_dir`;
* `src/opendal_mime_guess.rs` — `mime_from_path` and `opwrite_with_mime`.

Strings are modelled as `List Char`, byte payloads as `List Nat`, Rust
`Result` as the inductive `Res`, and the effectful environment (tokio fs,
walkdir, the opendal `Operator`) as an explicit `World` record of outcomes.
Each modelled operation additionally returns a trace of observable events
(`Ev`) so that ordering properties (wipe-before-upload, no write during
push, abort points) are stated as facts about the trace.
-/

/-- Characters of a Rust `String` / `str`. -/
abbrev Str := List Char

/-- Byte payload of a file (`Vec<u8>`). -/
abbrev Bytes := List Nat

/-- Rust `Result<α, ε>`: `Res.ok` is `Ok`, `Res.err` is `Err`. -/
inductive Res (ε α : Type) where
  | err (e : ε)
  | ok (a : α)
  deriving DecidableEq

/-- Unified error type covering `io::Error`, the `anyhow!("非法路径！")`
error of `push_path`, `opendal::Error`, and tokio's `JoinError`. -/
inductive Err where
  | ioErr (msg : Str)
  | invalidPath (msg : Str)
  | storageErr (msg : Str)
  | joinPanic (msg : Str)
  deriving DecidableEq

/-- Observable events of the engine, used to state ordering facts. -/
inductive Ev where
  | enumerate
  | removeAllEv (dir : Str)
  | readLocal (path : Str)
  | spawnUpload (target : Str)
  | remoteWrite (target : Str)
  deriving DecidableEq

/-- A `std::path::Path` as handed to `push_path`: it may or may not be valid
UTF-8 (`Path::to_str` returns `None` exactly when `valid = false`); `repr`
is its string content when valid. -/
structure OsPath where
  valid : Bool
  repr : Str
  deriving DecidableEq

/-- `Path::to_str()`. -/
def OsPath.toStr (p : OsPath) : Option Str :=
  if p.valid then some p.repr else none

/-- One character of `str::replace("\\", "/")` (the pattern is a single
backslash, so the replacement acts characterwise). -/
def normChar (c : Char) : Char := if c = '\\' then '/' else c

/-- `path.replace("\\", "/")` from `push_path`. -/
def normalizePath (s : Str) : Str := s.map normChar

/- ### The modelled remote object store

`opendal::Operator`'s namespace is an association list from keys to bytes;
`setKey` implements the idempotent overwrite of `Operator::write`, and
`removeUnder` the prefix wipe of `Operator::remove_all`. -/

/-- Remote object namespace: key/value pairs. -/
abbrev Storage := List (Str × Bytes)

/-- Observed content at a key (first matching entry). -/
def getKey : Storage → Str → Option Bytes
  | [], _ => none
  | (k', d) :: st, k => if k = k' then some d else getKey st k

/-- Idempotent overwrite: drop any old entry for the key, append the new. -/
def setKey : Storage → Str → Bytes → Storage
  | [], k, d => [(k, d)]
  | (k', d') :: st, k, d =>
    if k' = k then setKey st k d else (k', d') :: setKey st k d

/-- Boolean prefix test on character lists. -/
def beginsWith : Str → Str → Bool
  | [], _ => true
  | _ :: _, [] => false
  | c :: p, d :: s => decide (c = d) && beginsWith p s

/-- A key lies in the subtree wiped by `remove_all(dir)`: it is `dir`
itself or starts with `dir ++ "/"`. -/
def isUnder (dir k : Str) : Bool :=
  beginsWith (dir ++ ['/']) k || decide (k = dir)

/-- `Operator::remove_all(dir)`: delete every object under `dir`. -/
def removeUnder (dir : Str) : Storage → Storage
  | [] => []
  | (k, d) :: st =>
    if isUnder dir k then removeUnder dir st else (k, d) :: removeUnder dir st

/-- The keys currently stored under a prefix, in storage order. -/
def keysUnder (dir : Str) : Storage → List Str
  | [] => []
  | (k, _) :: st =>
    if isUnder dir k then k :: keysUnder dir st else keysUnder dir st

/- ### The effect environment

Outcomes of the external capabilities consumed by `opendal_fs.rs`:
`collect_files` (walkdir), `tokio::fs::read`, `Operator::remove_all` and
`Operator::write`.  A fixed `World` corresponds to one unchanged local tree
and one deterministic backend behaviour. -/

structure World where
  enum : Res Str (List OsPath)
  read : Str → Res Str Bytes
  removeAll : Res Str Unit
  write : Str → Bytes → Res Str Unit

/- ### `ConcurrentUploadTasks` -/

/-- `ConcurrentUploadTasks`: the `Operator` lives in the `World`; `handles`
holds, per spawned task in submission order, the target key and the bytes
the spawned closure will write. -/
structure ConcurrentUploadTasks where
  handles : List (Str × Bytes)
  deriving DecidableEq

/-- `ConcurrentUploadTasks::push_single_file(src, target)`: read the local
bytes (an `Err` is returned immediately to the caller), then spawn the
upload task.  The spawned remote write is recorded as a pending handle and
is not executed here — the trace contains no `remoteWrite` event. -/
def push_single_file (w : World) (u : ConcurrentUploadTasks) (src target : Str) :
    Res Err ConcurrentUploadTasks × List Ev :=
  match w.read src with
  | .err e => (.err (Err.ioErr e), [Ev.readLocal src])
  | .ok d =>
      (.ok ⟨u.handles ++ [(target, d)]⟩, [Ev.readLocal src, Ev.spawnUpload target])

/-- `ConcurrentUploadTasks::push_path`: the target string is computed from
`path.to_str().ok_or(anyhow!("非法路径！"))?.replace("\\", "/")` before
`push_single_file` runs, so an invalid path aborts with an empty trace. -/
def push_path (w : World) (u : ConcurrentUploadTasks) (p : OsPath) :
    Res Err ConcurrentUploadTasks × List Ev :=
  match p.toStr with
  | none => (.err (Err.invalidPath "非法路径！".data), [])
  | some s => push_single_file w u s (normalizePath s)

/-- `ConcurrentUploadTasks::push_str`: same source and target. -/
def push_str (w : World) (u : ConcurrentUploadTasks) (path : Str) :
    Res Err ConcurrentUploadTasks × List Ev :=
  push_single_file w u path path

/-- `ConcurrentUploadTasks::push_str_seq`: the `for` loop with `?` — the
first failing element aborts the whole submission. -/
def push_str_seq (w : World) (u : ConcurrentUploadTasks) :
    List Str → Res Err ConcurrentUploadTasks × List Ev
  | [] => (.ok u, [])
  | p :: ps =>
    match push_str w u p with
    | (.err e, tr) => (.err e, tr)
    | (.ok u', tr) =>
        let r := push_str_seq w u' ps
        (r.1, tr ++ r.2)

/- ### `join`

`join` first awaits every handle in submission order
(`for h in self.handles { results.push(h.await?); }` — the `?` propagates a
`JoinError` at once), then scans the collected results for the first `Err`
(`for r in results { r?; }`), and otherwise returns the task count.
A `HandleOutcome` is what awaiting one `JoinHandle` yields. -/

/-- Outcome of awaiting one spawned task's `JoinHandle`. -/
inductive HandleOutcome where
  | panicked (msg : Str)
  | completed (r : Res Str Unit)
  deriving DecidableEq

/-- Whether awaiting the handle itself failed (task panicked / cancelled). -/
def HandleOutcome.isPanicked : HandleOutcome → Bool
  | .panicked _ => true
  | .completed _ => false

/-- The first `for` loop of `join`: await each handle, propagating a
`JoinError` immediately. -/
def awaitLoop : List HandleOutcome → Res Str (List (Res Str Unit))
  | [] => .ok []
  | HandleOutcome.panicked e :: _ => .err e
  | HandleOutcome.completed r :: rest =>
    match awaitLoop rest with
    | .err e => .err e
    | .ok rs => .ok (r :: rs)

/-- The second `for` loop of `join`: first `Err` among the results. -/
def firstErrOf : List (Res Str Unit) → Option Str
  | [] => none
  | Res.err e :: _ => some e
  | Res.ok _ :: rest => firstErrOf rest

/-- `ConcurrentUploadTasks::join`. -/
def join (hs : List HandleOutcome) : Res Err Nat :=
  match awaitLoop hs with
  | .err e => .err (Err.joinPanic e)
  | .ok results =>
    match firstErrOf results with
    | some e => .err (Err.storageErr e)
    | none => .ok hs.length

/-- How many handles `join` actually awaits before returning: all of them,
unless an await itself fails. -/
def awaitedCount : List HandleOutcome → Nat
  | [] => 0
  | HandleOutcome.panicked _ :: _ => 1
  | HandleOutcome.completed _ :: rest => 1 + awaitedCount rest

/-- First failure among the *task* results, in submission order. -/
def firstFailureOf : List HandleOutcome → Option Str
  | [] => none
  | HandleOutcome.completed (Res.err e) :: _ => some e
  | HandleOutcome.completed (Res.ok _) :: rest => firstFailureOf rest
  | HandleOutcome.panicked _ :: rest => firstFailureOf rest

/-- Task results extracted from handle outcomes (meaningful when none
panicked). -/
def outcomesOf : List HandleOutcome → List (Res Str Unit)
  | [] => []
  | HandleOutcome.completed r :: rest => r :: outcomesOf rest
  | HandleOutcome.panicked e :: rest => Res.err e :: outcomesOf rest

/- ### `sync_dir`

`sync_dir(op, dir)` (src/opendal_fs.rs:99-114): enumerate via
`collect_files`, then `op.remove_all(dir)`, then push every enumerated path
through a fresh `ConcurrentUploadTasks`, then `join`.  The spawned remote
writes run between their spawn and the join barrier; the model makes their
effect on storage and their results observable at the join step
(`runHandles`), which is when the coordinating flow observes them. -/

/-- The `for path in files { upload.push_path(path).await? }` loop. -/
def pushLoop (w : World) (u : ConcurrentUploadTasks) :
    List OsPath → Res Err ConcurrentUploadTasks × List Ev
  | [] => (.ok u, [])
  | p :: ps =>
    match push_path w u p with
    | (.err e, tr) => (.err e, tr)
    | (.ok u', tr) =>
        let r := pushLoop w u' ps
        (r.1, tr ++ r.2)

/-- Execution of the spawned upload tasks: each task attempts
`op.write(target, data)`; a successful write overwrites the key, a failed
one leaves storage unchanged; every attempt is an observable event and
yields a result for `join`. -/
def runHandles (w : World) : Storage → List (Str × Bytes) →
    Storage × List (Res Str Unit) × List Ev
  | st, [] => (st, [], [])
  | st, (k, d) :: rest =>
    match w.write k d with
    | .ok _ =>
        let r := runHandles w (setKey st k d) rest
        (r.1, .ok () :: r.2.1, Ev.remoteWrite k :: r.2.2)
    | .err e =>
        let r := runHandles w st rest
        (r.1, .err e :: r.2.1, Ev.remoteWrite k :: r.2.2)

/-- Result of one `sync_dir` run: the returned `Result<usize>`, the final
remote storage, and the event trace. -/
structure SyncOut where
  result : Res Err Nat
  storage : Storage
  trace : List Ev
  deriving DecidableEq

/-- `sync_dir`: load the directory, delete the old target, upload
everything, join.  Spawned tasks never panic here (their closure is just
`op.write`), so their handle outcomes are `completed` results. -/
def sync_dir (w : World) (st : Storage) (dir : Str) : SyncOut :=
  match w.enum with
  | .err e => ⟨.err (Err.ioErr e), st, [Ev.enumerate]⟩
  | .ok files =>
    match w.removeAll with
    | .err e => ⟨.err (Err.storageErr e), st, [Ev.enumerate, Ev.removeAllEv dir]⟩
    | .ok _ =>
      let st1 := removeUnder dir st
      match pushLoop w ⟨[]⟩ files with
      | (.err e, tr) => ⟨.err e, st1, Ev.enumerate :: Ev.removeAllEv dir :: tr⟩
      | (.ok u, tr) =>
          let r := runHandles w st1 u.handles
          ⟨join (r.2.1.map HandleOutcome.completed), r.1,
            Ev.enumerate :: Ev.removeAllEv dir :: (tr ++ r.2.2)⟩

/-- Writes applied in submission order (the storage effect of a fully
successful task set). -/
def applyWrites (st : Storage) (hs : List (Str × Bytes)) : Storage :=
  hs.foldl (fun s t => setKey s t.1 t.2) st

/-- Upload events: a task being scheduled or a remote write attempt. -/
def Ev.isUpload : Ev → Bool
  | .spawnUpload _ => true
  | .remoteWrite _ => true
  | _ => false

/-- Whether an event is the `remove_all` wipe. -/
def Ev.isRemoveAll : Ev → Bool
  | .removeAllEv _ => true
  | _ => false

/-- No upload event occurs before the wipe: every event strictly preceding
the first `removeAllEv` is a non-upload event. -/
def removeBeforeUploads (tr : List Ev) : Bool :=
  (tr.takeWhile (fun e => !e.isRemoveAll)).all (fun e => !e.isUpload)

/- ### The scheduler model for the fan-out

Modelled from the spec: the tokio task scheduler is an external
collaborator; a spawned upload is an independently scheduled concurrent
operation that may reach its terminal state at any moment, in any
interleaving with the other spawned uploads. -/

/-- State of one spawned upload as seen by the scheduler. -/
inductive UpStatus where
  | pending
  | done (r : Res Str Unit)
  deriving DecidableEq

/-- Modelled from the spec: one scheduler step — any still-pending spawned
upload may complete, with any result, independently of the others. -/
inductive ConcStep : List UpStatus → List UpStatus → Prop
  | finish (pre post : List UpStatus) (r : Res Str Unit) :
      ConcStep (pre ++ UpStatus.pending :: post) (pre ++ UpStatus.done r :: post)

/- ### Shared concrete worlds for instantiations -/

/-- A world with an empty directory and an all-successful backend. -/
def wEmpty : World :=
  { enum := .ok [], read := fun _ => .ok [], removeAll := .ok (),
    write := fun _ _ => .ok () }

/-- A world whose local read fails exactly on the path `"bad"`. -/
def wReadFail : World :=
  { enum := .ok [],
    read := fun s => if s = "bad".data then .err "no such file".data else .ok [7],
    removeAll := .ok (), write := fun _ _ => .ok () }

/- ### The content-type resolver (`src/opendal_mime_guess.rs`)

`mime_from_path` is `mime_guess::from_path(path).first_raw()`; the
`mime_guess` crate is an external collaborator, so its behaviour is
modelled: it takes the extension of the final path segment (the part of the
file name after its last dot, provided the part before that dot is
nonempty, mirroring `Path::extension`) and looks it up in a static
extension-to-media-type table, of which a representative fragment is
embedded here. -/

/-- Final segment of an opendal path (after the last `/`). -/
def fileName (p : Str) : Str :=
  p.foldl (fun acc c => if c = '/' then [] else acc ++ [c]) []

/-- Extension of the final segment: the characters after the last dot, when
a dot exists and the stem before it is nonempty. -/
def extensionOf (p : Str) : Option Str :=
  let name := fileName p
  let e := name.reverse.takeWhile (fun c => decide (c ≠ '.'))
  if e.length + 2 ≤ name.length then some e.reverse else none

/-- Modelled from the spec: a fragment of the static extension-to-type
table of the external `mime_guess` crate (the repository's own tests pin
`html ↦ text/html` and that unknown extensions resolve to nothing). -/
def mimeTable : List (Str × Str) :=
  [("html".data, "text/html".data), ("htm".data, "text/html".data),
   ("css".data, "text/css".data), ("js".data, "text/javascript".data),
   ("png".data, "image/png".data), ("txt".data, "text/plain".data)]

/-- Table lookup by extension. -/
def lookupExt (e : Str) : Option Str :=
  (mimeTable.find? (fun kv => decide (kv.1 = e))).map (fun kv => kv.2)

/-- `mime_from_path` (src/opendal_mime_guess.rs:98-100). -/
def mime_from_path (p : Str) : Option Str :=
  (extensionOf p).bind lookupExt

/-- The write arguments relevant to the layer: `OpWrite::content_type`. -/
structure OpWrite where
  content_type : Option Str
  deriving DecidableEq

/-- `OpWrite::with_content_type`. -/
def OpWrite.with_content_type (_op : OpWrite) (mime : Str) : OpWrite :=
  { content_type := some mime }

/-- `opwrite_with_mime` (src/opendal_mime_guess.rs:102-112): fill in a
guessed content type only when the caller set none. -/
def opwrite_with_mime (path : Str) (op : OpWrite) : OpWrite :=
  if op.content_type = none then
    match mime_from_path path with
    | some mime => op.with_content_type mime
    | none => op
  else op

/-- A world whose enumeration fails. -/
def wEnumFail : World :=
  { enum := .err "unreadable dir".data, read := fun _ => .ok [],
    removeAll := .ok (), write := fun _ _ => .ok () }

/-- A world whose `remove_all` fails. -/
def wRemoveFail : World :=
  { enum := .ok [⟨true, "public/a".data⟩], read := fun _ => .ok [1],
    removeAll := .err "delete failed".data, write := fun _ _ => .ok () }

/- ### Storage lemmas -/

/-- First-write-wins fold of the last value written to a key. -/
def lastVal (W : List (Str × Bytes)) (k : Str) : Option Bytes :=
  W.foldl (fun acc t => if t.1 = k then some t.2 else acc) none

/-- Left-biased choice on optional bytes. -/
def orElseOpt (a b : Option Bytes) : Option Bytes :=
  match a with
  | some v => some v
  | none => b

/- ### Local directory trees and their enumerated paths

A local tree is described by the walk root and, per regular file, its
root-relative path as a list of segments plus its byte content.  `walkdir`
yields each file's path as the root joined with the relative path by the
platform separator; `push_path` then normalizes separators to `/`. -/

/-- Platform path separator. -/
def sepOf (windows : Bool) : Str := if windows then ['\\'] else ['/']

/-- Segments joined by a separator. -/
def joinSegs (sep : Str) : List Str → Str
  | [] => []
  | [s] => s
  | s :: rest => s ++ sep ++ joinSegs sep rest

/-- The path `walkdir` yields for a file: root, separator, relative path. -/
def fullPath (windows : Bool) (root : Str) (rel : List Str) : Str :=
  root ++ sepOf windows ++ joinSegs (sepOf windows) rel

/- ### Evaluation of a fully successful mirror -/

/-- The handle a successful `push_path` records for an enumerated file:
the normalized path as target key, the read bytes as payload. -/
def handleOf (f : OsPath × Bytes) : Str × Bytes := (normalizePath f.1.repr, f.2)

/-- An all-successful backend for the two-file demo tree
`site/{index.html, img/logo.png}`. -/
def wMirror : World :=
  { enum := .ok [⟨true, "site/index.html".data⟩, ⟨true, "site/img/logo.png".data⟩],
    read := fun s => if s = "site/index.html".data then .ok [1] else .ok [2],
    removeAll := .ok (), write := fun _ _ => .ok () }

/-- A starting remote state holding stale content under the prefix and an
unrelated object outside it. -/
def stDemo : Storage := [("site/old.txt".data, [9]), ("other/keep".data, [5])]

/-- The demo tree: two files, with their root-relative segment paths. -/
def treeDemo : List (List Str × Bytes) :=
  [(["index.html".data], [1]), (["img".data, "logo.png".data], [2])]

/- ### Lemmas about `join` -/

theorem awaitLoop_no_panic (hs : List HandleOutcome)
    (h : ∀ x ∈ hs, x.isPanicked = false) :
    awaitLoop hs = .ok (outcomesOf hs) := by
  induction hs with
  | nil => rfl
  | cons x rest ih =>
    cases x with
    | panicked e => simp [HandleOutcome.isPanicked] at h
    | completed r =>
      have hrest : ∀ y ∈ rest, y.isPanicked = false := fun y hy => h y (by simp [hy])
      simp [awaitLoop, ih hrest, outcomesOf]

theorem awaitedCount_no_panic (hs : List HandleOutcome)
    (h : ∀ x ∈ hs, x.isPanicked = false) :
    awaitedCount hs = hs.length := by
  induction hs with
  | nil => rfl
  | cons x rest ih =>
    cases x with
    | panicked e => simp [HandleOutcome.isPanicked] at h
    | completed r =>
      have hrest : ∀ y ∈ rest, y.isPanicked = false := fun y hy => h y (by simp [hy])
      simp only [awaitedCount, ih hrest, List.length_cons]
      omega

theorem firstErrOf_outcomes (hs : List HandleOutcome)
    (h : ∀ x ∈ hs, x.isPanicked = false) :
    firstErrOf (outcomesOf hs) = firstFailureOf hs := by
  induction hs with
  | nil => rfl
  | cons x rest ih =>
    cases x with
    | panicked e => simp [HandleOutcome.isPanicked] at h
    | completed r =>
      have hrest : ∀ y ∈ rest, y.isPanicked = false := fun y hy => h y (by simp [hy])
      cases r with
      | err e => simp [outcomesOf, firstErrOf, firstFailureOf]
      | ok a => simp [outcomesOf, firstErrOf, firstFailureOf, ih hrest]

theorem awaitLoop_panicked (pre post : List HandleOutcome) (e : Str)
    (hpre : ∀ x ∈ pre, x.isPanicked = false) :
    awaitLoop (pre ++ HandleOutcome.panicked e :: post) = .err e := by
  induction pre with
  | nil => rfl
  | cons x rest ih =>
    cases x with
    | panicked m => simp [HandleOutcome.isPanicked] at hpre
    | completed r =>
      have hrest : ∀ y ∈ rest, y.isPanicked = false := fun y hy => hpre y (by simp [hy])
      simp [awaitLoop, ih hrest]

theorem awaitedCount_panicked (pre post : List HandleOutcome) (e : Str)
    (hpre : ∀ x ∈ pre, x.isPanicked = false) :
    awaitedCount (pre ++ HandleOutcome.panicked e :: post) = pre.length + 1 := by
  induction pre with
  | nil => rfl
  | cons x rest ih =>
    cases x with
    | panicked m => simp [HandleOutcome.isPanicked] at hpre
    | completed r =>
      have hrest : ∀ y ∈ rest, y.isPanicked = false := fun y hy => hpre y (by simp [hy])
      calc awaitedCount ((HandleOutcome.completed r :: rest) ++ HandleOutcome.panicked e :: post)
          = 1 + awaitedCount (rest ++ HandleOutcome.panicked e :: post) := rfl
        _ = 1 + (rest.length + 1) := by rw [ih hrest]
        _ = (HandleOutcome.completed r :: rest).length + 1 := by
              simp only [List.length_cons]; omega

theorem awaitLoop_ok_all (hs : List HandleOutcome) :
    ∀ results, awaitLoop hs = .ok results → firstErrOf results = none →
      ∀ x ∈ hs, x = HandleOutcome.completed (.ok ()) := by
  induction hs with
  | nil => intro results _ _ x hx; exact absurd hx (List.not_mem_nil x)
  | cons x rest ih =>
    intro results ha hf
    cases x with
    | panicked e => simp [awaitLoop] at ha
    | completed r =>
      rcases hrest : awaitLoop rest with e' | rs
      · simp [awaitLoop, hrest] at ha
      · simp only [awaitLoop, hrest, Res.ok.injEq] at ha
        subst ha
        cases r with
        | err e => simp [firstErrOf] at hf
        | ok a =>
          simp only [firstErrOf] at hf
          intro y hy
          rcases List.mem_cons.1 hy with hy | hy
          · subst hy; rfl
          · exact ih rs hrest hf y hy

theorem join_ok_inv (hs : List HandleOutcome) (n : Nat) (h : join hs = .ok n) :
    n = hs.length ∧ ∀ x ∈ hs, x = HandleOutcome.completed (.ok ()) := by
  unfold join at h
  split at h
  · exact absurd h (by simp)
  · rename_i results ha
    split at h
    · exact absurd h (by simp)
    · rename_i hf
      simp only [Res.ok.injEq] at h
      exact ⟨h.symm, awaitLoop_ok_all hs results ha hf⟩

theorem firstFailureOf_all_ok (hs : List HandleOutcome)
    (h : ∀ x ∈ hs, x = HandleOutcome.completed (.ok ())) :
    firstFailureOf hs = none := by
  induction hs with
  | nil => rfl
  | cons x rest ih =>
    rw [h x (by simp)]
    simp only [firstFailureOf]
    exact ih (fun y hy => h y (by simp [hy]))

theorem join_all_ok (hs : List HandleOutcome)
    (h : ∀ x ∈ hs, x = HandleOutcome.completed (.ok ())) :
    join hs = .ok hs.length := by
  have hnp : ∀ x ∈ hs, x.isPanicked = false := by
    intro x hx; rw [h x hx]; rfl
  simp only [join, awaitLoop_no_panic hs hnp, firstErrOf_outcomes hs hnp,
    firstFailureOf_all_ok hs h]

/- ### Claims about `join` -/

/-- Claim C1: when no await of a completion handle itself fails, `join`
awaits every scheduled upload (the awaited count equals the number of
handles, i.e. each task has reached success or failure before `join`
returns), and then returns the first failure in submission order as its
error, discarding all successful results; with no failure it returns the
task count. -/
theorem join_barrier_first_failure (hs : List HandleOutcome)
    (h : ∀ x ∈ hs, x.isPanicked = false) :
    awaitedCount hs = hs.length ∧
    join hs = (match firstFailureOf hs with
               | some e => .err (Err.storageErr e)
               | none => .ok hs.length) := by
  refine ⟨awaitedCount_no_panic hs h, ?_⟩
  cases hf : firstFailureOf hs with
  | none => simp only [join, awaitLoop_no_panic hs h, firstErrOf_outcomes hs h, hf]
  | some e => simp only [join, awaitLoop_no_panic hs h, firstErrOf_outcomes hs h, hf]

/-- Tasks a, b, c submitted in that order, only b's remote write fails:
all three handles are awaited and the error identifies b. -/
theorem join_barrier_first_failure_witness :
    awaitedCount [HandleOutcome.completed (.ok ()),
        HandleOutcome.completed (.err "b failed".data),
        HandleOutcome.completed (.ok ())] = 3 ∧
    join [HandleOutcome.completed (.ok ()),
        HandleOutcome.completed (.err "b failed".data),
        HandleOutcome.completed (.ok ())] =
      .err (Err.storageErr "b failed".data) :=
  join_barrier_first_failure
    [HandleOutcome.completed (.ok ()),
     HandleOutcome.completed (.err "b failed".data),
     HandleOutcome.completed (.ok ())] (by decide)

/-- Claim C10: if awaiting some handle fails (the spawned task panicked or
was cancelled), `join` returns that join error immediately: only the
handles up to and including the failing one are awaited, so later handles
are abandoned and the all-tasks barrier does not cover them. -/
theorem join_early_return_on_panicked (pre post : List HandleOutcome) (e : Str)
    (hpre : ∀ x ∈ pre, x.isPanicked = false) :
    join (pre ++ HandleOutcome.panicked e :: post) = .err (Err.joinPanic e) ∧
    awaitedCount (pre ++ HandleOutcome.panicked e :: post) = pre.length + 1 := by
  refine ⟨?_, awaitedCount_panicked pre post e hpre⟩
  simp only [join, awaitLoop_panicked pre post e hpre]

/-- With three handles whose second panicked, `join` fails with the join
error after awaiting only two of the three handles. -/
theorem join_early_return_on_panicked_witness :
    join [HandleOutcome.completed (.ok ()), HandleOutcome.panicked "boom".data,
        HandleOutcome.completed (.ok ())] = .err (Err.joinPanic "boom".data) ∧
    awaitedCount [HandleOutcome.completed (.ok ()), HandleOutcome.panicked "boom".data,
        HandleOutcome.completed (.ok ())] = 2 :=
  join_early_return_on_panicked [HandleOutcome.completed (.ok ())]
    [HandleOutcome.completed (.ok ())] "boom".data (by decide)

/-- Claim C4: `join` returns a success count only if all tasks succeeded,
and that count is the number of pushed tasks; conversely an all-successful
set joins to its size; and mirroring an empty directory succeeds with zero
tasks attempted. -/
theorem join_success_count :
    (∀ (hs : List HandleOutcome) (n : Nat), join hs = .ok n →
        n = hs.length ∧ ∀ x ∈ hs, x = HandleOutcome.completed (.ok ())) ∧
    (∀ hs : List HandleOutcome,
        (∀ x ∈ hs, x = HandleOutcome.completed (.ok ())) → join hs = .ok hs.length) ∧
    (∀ (w : World) (st : Storage) (dir : Str),
        w.enum = .ok [] → w.removeAll = .ok () →
        (sync_dir w st dir).result = .ok 0) := by
  refine ⟨join_ok_inv, join_all_ok, ?_⟩
  intro w st dir henum hrm
  simp [sync_dir, henum, hrm, pushLoop, runHandles, join, awaitLoop, firstErrOf]

/-- Two successful tasks join to the count 2, and mirroring an empty
directory returns zero tasks attempted. -/
theorem join_success_count_witness :
    join [HandleOutcome.completed (.ok ()), HandleOutcome.completed (.ok ())] = .ok 2 ∧
    (sync_dir wEmpty [] "public".data).result = .ok 0 :=
  ⟨join_success_count.2.1
      [HandleOutcome.completed (.ok ()), HandleOutcome.completed (.ok ())] (by decide),
   join_success_count.2.2 wEmpty [] "public".data rfl rfl⟩

/- ### Claims about the push operations -/

/-- Claim C5: a failure to read the local bytes is returned immediately by
the push itself (its trace holds only the read event — no task is spawned,
nothing is deferred to `join`), and in a batch submission via
`push_str_seq` the first element whose read fails aborts the whole
submission with that error: the trace shows reads and spawns for the
earlier elements only, then the failing read, and nothing for later
elements. -/
theorem push_read_error_immediate :
    (∀ (w : World) (u : ConcurrentUploadTasks) (src target e : Str),
        w.read src = .err e →
        push_single_file w u src target = (.err (Err.ioErr e), [Ev.readLocal src])) ∧
    (∀ (w : World) (u : ConcurrentUploadTasks) (pre : List Str) (p : Str)
        (post : List Str) (e : Str),
        (∀ q ∈ pre, ∃ d, w.read q = .ok d) → w.read p = .err e →
        push_str_seq w u (pre ++ p :: post) =
          (.err (Err.ioErr e),
           pre.flatMap (fun q => [Ev.readLocal q, Ev.spawnUpload q]) ++ [Ev.readLocal p])) := by
  constructor
  · intro w u src target e h
    simp [push_single_file, h]
  · intro w u pre p post e hpre hp
    induction pre generalizing u with
    | nil => simp [push_str_seq, push_str, push_single_file, hp]
    | cons q rest ih =>
      obtain ⟨d, hd⟩ := hpre q (by simp)
      have hrest : ∀ r ∈ rest, ∃ d, w.read r = .ok d := fun r hr => hpre r (by simp [hr])
      have hi := ih ⟨u.handles ++ [(q, d)]⟩ hrest
      simp [push_str_seq, push_str, push_single_file, hd, hi]

/-- Reading `"bad"` fails: a single push returns the io error at once, and
the batch `["a", "bad", "c"]` aborts during `"bad"` with no task ever
submitted for `"c"`. -/
theorem push_read_error_immediate_witness :
    push_single_file wReadFail ⟨[]⟩ "bad".data "bad".data =
      (.err (Err.ioErr "no such file".data), [Ev.readLocal "bad".data]) ∧
    push_str_seq wReadFail ⟨[]⟩ ["a".data, "bad".data, "c".data] =
      (.err (Err.ioErr "no such file".data),
       [Ev.readLocal "a".data, Ev.spawnUpload "a".data, Ev.readLocal "bad".data]) :=
  ⟨push_read_error_immediate.1 wReadFail ⟨[]⟩ "bad".data "bad".data
      "no such file".data (by decide),
   push_read_error_immediate.2 wReadFail ⟨[]⟩ ["a".data] "bad".data ["c".data]
      "no such file".data
      (by intro q hq; simp at hq; subst hq; exact ⟨[7], by decide⟩)
      (by decide)⟩

/-- Claim C9: `push_path` on a path whose string representation is not
valid UTF-8 returns the `anyhow!("非法路径！")` error before reading the
file and before scheduling any upload: its event trace is empty, so no
local read and no remote mutation happens for that task. -/
theorem push_path_invalid_utf8 (w : World) (u : ConcurrentUploadTasks) (p : OsPath)
    (h : p.valid = false) :
    push_path w u p = (.err (Err.invalidPath "非法路径！".data), []) := by
  simp [push_path, OsPath.toStr, h]

/-- A non-UTF-8 path is rejected with the invalid-path error and an empty
trace. -/
theorem push_path_invalid_utf8_witness :
    push_path wEmpty ⟨[]⟩ ⟨false, []⟩ = (.err (Err.invalidPath "非法路径！".data), []) :=
  push_path_invalid_utf8 wEmpty ⟨[]⟩ ⟨false, []⟩ rfl

/-- Claim C8: a push schedules the remote write as an independently
executing concurrent task and returns without waiting for it: the push
returns successfully with the new handle appended while its trace holds no
`remoteWrite` event; and in the scheduler model any two pending uploads can
complete in either order (they may run in parallel), `join` being the only
point that observes their completion. -/
theorem push_schedules_without_waiting :
    (∀ (w : World) (u : ConcurrentUploadTasks) (src target : Str) (d : Bytes),
        w.read src = .ok d →
        push_single_file w u src target =
          (.ok ⟨u.handles ++ [(target, d)]⟩,
           [Ev.readLocal src, Ev.spawnUpload target]) ∧
        ∀ k, Ev.remoteWrite k ∉ (push_single_file w u src target).2) ∧
    (∀ (a b c : List UpStatus) (r₁ r₂ : Res Str Unit),
        Relation.ReflTransGen ConcStep
          (a ++ UpStatus.pending :: (b ++ UpStatus.pending :: c))
          (a ++ UpStatus.done r₁ :: (b ++ UpStatus.pending :: c)) ∧
        Relation.ReflTransGen ConcStep
          (a ++ UpStatus.done r₁ :: (b ++ UpStatus.pending :: c))
          (a ++ UpStatus.done r₁ :: (b ++ UpStatus.done r₂ :: c)) ∧
        Relation.ReflTransGen ConcStep
          (a ++ UpStatus.pending :: (b ++ UpStatus.pending :: c))
          (a ++ UpStatus.pending :: (b ++ UpStatus.done r₂ :: c)) ∧
        Relation.ReflTransGen ConcStep
          (a ++ UpStatus.pending :: (b ++ UpStatus.done r₂ :: c))
          (a ++ UpStatus.done r₁ :: (b ++ UpStatus.done r₂ :: c))) := by
  constructor
  · intro w u src target d h
    refine ⟨by simp [push_single_file, h], ?_⟩
    intro k
    simp [push_single_file, h]
  · intro a b c r₁ r₂
    refine ⟨Relation.ReflTransGen.single (ConcStep.finish a (b ++ UpStatus.pending :: c) r₁),
      ?_, ?_, Relation.ReflTransGen.single (ConcStep.finish a (b ++ UpStatus.done r₂ :: c) r₁)⟩
    · have h := ConcStep.finish (a ++ UpStatus.done r₁ :: b) c r₂
      refine Relation.ReflTransGen.single ?_
      simpa [List.append_assoc] using h
    · have h := ConcStep.finish (a ++ UpStatus.pending :: b) c r₂
      refine Relation.ReflTransGen.single ?_
      simpa [List.append_assoc] using h

/-- A successful push appends the pending task and performs no remote
write. -/
theorem push_schedules_without_waiting_witness :
    push_single_file wEmpty ⟨[]⟩ "a".data "a".data =
      (.ok ⟨[("a".data, [])]⟩, [Ev.readLocal "a".data, Ev.spawnUpload "a".data]) ∧
    Ev.remoteWrite "a".data ∉ (push_single_file wEmpty ⟨[]⟩ "a".data "a".data).2 :=
  ⟨(push_schedules_without_waiting.1 wEmpty ⟨[]⟩ "a".data "a".data [] rfl).1,
   (push_schedules_without_waiting.1 wEmpty ⟨[]⟩ "a".data "a".data [] rfl).2 "a".data⟩

/-- Claim C6: the content-type resolver never overrides an explicitly
provided content type; with no content type set it fills in the resolver's
mapping when the path's extension is known, and sets nothing when the
extension is unknown or absent. -/
theorem opwrite_with_mime_spec :
    (∀ (path : Str) (op : OpWrite) (c : Str), op.content_type = some c →
        (opwrite_with_mime path op).content_type = some c) ∧
    (∀ (path : Str) (op : OpWrite) (m : Str), op.content_type = none →
        mime_from_path path = some m →
        (opwrite_with_mime path op).content_type = some m) ∧
    (∀ (path : Str) (op : OpWrite), op.content_type = none →
        mime_from_path path = none →
        (opwrite_with_mime path op).content_type = none) := by
  refine ⟨?_, ?_, ?_⟩
  · intro path op c h
    simp [opwrite_with_mime, h]
  · intro path op m h hm
    simp [opwrite_with_mime, h, hm, OpWrite.with_content_type]
  · intro path op h hm
    simp [opwrite_with_mime, h, hm]

/-- `index.html` with an explicit type keeps it; with none it gets the
resolver's html mapping; `data.unknownext` with none stays untyped. -/
theorem opwrite_with_mime_spec_witness :
    (opwrite_with_mime "index.html".data ⟨some "text/custom".data⟩).content_type =
      some "text/custom".data ∧
    (opwrite_with_mime "index.html".data ⟨none⟩).content_type =
      some "text/html".data ∧
    (opwrite_with_mime "data.unknownext".data ⟨none⟩).content_type = none :=
  ⟨opwrite_with_mime_spec.1 "index.html".data ⟨some "text/custom".data⟩
      "text/custom".data rfl,
   opwrite_with_mime_spec.2.1 "index.html".data ⟨none⟩ "text/html".data rfl (by decide),
   opwrite_with_mime_spec.2.2 "data.unknownext".data ⟨none⟩ rfl (by decide)⟩

/- ### Claim C3: ordering of enumerate, wipe, upload -/

theorem sync_dir_trace_shape (w : World) (st : Storage) (dir : Str) :
    (sync_dir w st dir).trace = [Ev.enumerate] ∨
    ∃ rest, (sync_dir w st dir).trace = Ev.enumerate :: Ev.removeAllEv dir :: rest := by
  unfold sync_dir
  split
  · left; rfl
  · split
    · right; exact ⟨[], rfl⟩
    · dsimp only
      split
      · right; exact ⟨_, rfl⟩
      · right; exact ⟨_, rfl⟩

theorem removeBeforeUploads_cons (dir : Str) (rest : List Ev) :
    removeBeforeUploads (Ev.enumerate :: Ev.removeAllEv dir :: rest) = true := by
  simp [removeBeforeUploads, Ev.isRemoveAll, Ev.isUpload]

/-- Claim C3: in every `sync_dir` run enumeration is the first event; an
enumeration failure aborts with only the enumeration event (so before the
remote wipe) and an unchanged remote state; the wipe always precedes every
upload event; and a failed `remove_all` aborts with that error before any
upload is attempted and before any task is spawned. -/
theorem sync_dir_abort_order :
    (∀ (w : World) (st : Storage) (dir : Str),
        (sync_dir w st dir).trace.head? = some Ev.enumerate ∧
        removeBeforeUploads (sync_dir w st dir).trace = true) ∧
    (∀ (w : World) (st : Storage) (dir : Str) (e : Str), w.enum = .err e →
        sync_dir w st dir = ⟨.err (Err.ioErr e), st, [Ev.enumerate]⟩) ∧
    (∀ (w : World) (st : Storage) (dir : Str) (files : List OsPath) (e : Str),
        w.enum = .ok files → w.removeAll = .err e →
        sync_dir w st dir =
          ⟨.err (Err.storageErr e), st, [Ev.enumerate, Ev.removeAllEv dir]⟩) := by
  refine ⟨?_, ?_, ?_⟩
  · intro w st dir
    rcases sync_dir_trace_shape w st dir with h | ⟨rest, h⟩ <;> rw [h]
    · exact ⟨rfl, by decide⟩
    · exact ⟨rfl, removeBeforeUploads_cons dir rest⟩
  · intro w st dir e h
    simp [sync_dir, h]
  · intro w st dir files e henum hrm
    simp [sync_dir, henum, hrm]

/-- A failing enumeration aborts before the wipe, and a failing wipe aborts
before any upload, each leaving the remote state untouched. -/
theorem sync_dir_abort_order_witness :
    sync_dir wEnumFail [] "public".data =
      ⟨.err (Err.ioErr "unreadable dir".data), [], [Ev.enumerate]⟩ ∧
    sync_dir wRemoveFail [("public/old".data, [0])] "public".data =
      ⟨.err (Err.storageErr "delete failed".data), [("public/old".data, [0])],
       [Ev.enumerate, Ev.removeAllEv "public".data]⟩ :=
  ⟨sync_dir_abort_order.2.1 wEnumFail [] "public".data "unreadable dir".data rfl,
   sync_dir_abort_order.2.2 wRemoveFail [("public/old".data, [0])] "public".data
     [⟨true, "public/a".data⟩] "delete failed".data rfl rfl⟩

theorem getKey_setKey (k₁ : Str) (d : Bytes) :
    ∀ (st : Storage) (k : Str),
      getKey (setKey st k₁ d) k = if k = k₁ then some d else getKey st k := by
  intro st
  induction st with
  | nil => intro k; rfl
  | cons p st ih =>
    intro k
    obtain ⟨k', d'⟩ := p
    by_cases h1 : k' = k₁ <;> by_cases hk : k = k' <;>
      simp_all [setKey, getKey, ih]

theorem foldl_lastVal (k : Str) : ∀ (W : List (Str × Bytes)) (acc : Option Bytes),
    W.foldl (fun acc t => if t.1 = k then some t.2 else acc) acc
      = orElseOpt (lastVal W k) acc := by
  intro W
  induction W with
  | nil => intro acc; rfl
  | cons t rest ih =>
    intro acc
    obtain ⟨k₁, d₁⟩ := t
    simp only [List.foldl_cons, lastVal]
    rw [ih, ih]
    cases hl : lastVal rest k with
    | some v => simp [orElseOpt, hl]
    | none => by_cases hk : k₁ = k <;> simp [orElseOpt, hl, hk]

theorem getKey_applyWrites : ∀ (W : List (Str × Bytes)) (st : Storage) (k : Str),
    getKey (applyWrites st W) k = orElseOpt (lastVal W k) (getKey st k) := by
  intro W
  induction W with
  | nil => intro st k; rfl
  | cons t rest ih =>
    intro st k
    obtain ⟨k₁, d₁⟩ := t
    have h1 : applyWrites st ((k₁, d₁) :: rest) = applyWrites (setKey st k₁ d₁) rest := rfl
    have h2 : lastVal ((k₁, d₁) :: rest) k
        = orElseOpt (lastVal rest k) (if k₁ = k then some d₁ else none) := by
      simp only [lastVal, List.foldl_cons]
      exact foldl_lastVal k rest _
    rw [h1, ih, h2, getKey_setKey]
    by_cases hk : k = k₁
    · subst hk
      cases hl : lastVal rest k <;> simp [orElseOpt, hl]
    · have hk' : ¬(k₁ = k) := fun h => hk h.symm
      cases hl : lastVal rest k <;> simp [orElseOpt, hl, hk, hk']

theorem getKey_removeUnder (dir : Str) :
    ∀ (st : Storage) (k : Str),
      getKey (removeUnder dir st) k = if isUnder dir k then none else getKey st k := by
  intro st
  induction st with
  | nil => intro k; simp [removeUnder, getKey]
  | cons p st ih =>
    intro k
    obtain ⟨k', d'⟩ := p
    by_cases hu : isUnder dir k' <;> by_cases hk : k = k' <;>
      simp_all [removeUnder, getKey, ih]

theorem keysUnder_removeUnder (dir : Str) : ∀ st : Storage,
    keysUnder dir (removeUnder dir st) = [] := by
  intro st
  induction st with
  | nil => rfl
  | cons p st ih =>
    obtain ⟨k', d'⟩ := p
    by_cases hu : isUnder dir k' <;> simp [removeUnder, keysUnder, hu, ih]

theorem not_mem_fst_removeUnder (dir k : Str) (hk : isUnder dir k = true) :
    ∀ st : Storage, k ∉ (removeUnder dir st).map Prod.fst := by
  intro st
  induction st with
  | nil => simp [removeUnder]
  | cons p st ih =>
    obtain ⟨k', d'⟩ := p
    by_cases hu : isUnder dir k' <;> simp [removeUnder, hu, ih]
    intro h
    rw [h] at hk
    simp_all

theorem map_fst_setKey (k : Str) (d : Bytes) : ∀ st : Storage,
    k ∉ st.map Prod.fst → (setKey st k d).map Prod.fst = st.map Prod.fst ++ [k] := by
  intro st
  induction st with
  | nil => intro _; rfl
  | cons p st ih =>
    intro h
    obtain ⟨k', d'⟩ := p
    simp only [List.map_cons, List.mem_cons] at h
    push_neg at h
    have hne : ¬(k' = k) := fun hh => h.1 hh.symm
    simp [setKey, hne, ih h.2]

theorem keysUnder_setKey (dir k : Str) (d : Bytes) (hk : isUnder dir k = true) :
    ∀ st : Storage, k ∉ st.map Prod.fst →
      keysUnder dir (setKey st k d) = keysUnder dir st ++ [k] := by
  intro st
  induction st with
  | nil => intro _; simp [setKey, keysUnder, hk]
  | cons p st ih =>
    intro h
    obtain ⟨k', d'⟩ := p
    simp only [List.map_cons, List.mem_cons] at h
    push_neg at h
    have hne : ¬(k' = k) := fun hh => h.1 hh.symm
    by_cases hu : isUnder dir k' <;> simp [setKey, hne, keysUnder, hu, ih h.2]

theorem keysUnder_applyWrites (dir : Str) :
    ∀ (W : List (Str × Bytes)) (st : Storage),
      (∀ t ∈ W, isUnder dir t.1 = true) → (W.map Prod.fst).Nodup →
      (∀ t ∈ W, t.1 ∉ st.map Prod.fst) →
      keysUnder dir (applyWrites st W) = keysUnder dir st ++ W.map Prod.fst := by
  intro W
  induction W with
  | nil => intro st _ _ _; simp [applyWrites]
  | cons t rest ih =>
    intro st hund hnd hdis
    obtain ⟨k, d⟩ := t
    have hk : isUnder dir k = true := hund (k, d) (by simp)
    have hkst : k ∉ st.map Prod.fst := hdis (k, d) (by simp)
    rw [List.map_cons] at hnd
    obtain ⟨hhead, htail⟩ := List.nodup_cons.1 hnd
    have h1 : applyWrites st ((k, d) :: rest) = applyWrites (setKey st k d) rest := rfl
    have hdis' : ∀ t ∈ rest, t.1 ∉ (setKey st k d).map Prod.fst := by
      intro t ht
      rw [map_fst_setKey k d st hkst]
      simp only [List.mem_append, List.mem_singleton]
      rintro (hm | hm)
      · exact hdis t (by simp [ht]) hm
      · exact hhead (by rw [← hm]; exact List.mem_map.2 ⟨t, ht, rfl⟩)
    rw [h1, ih (setKey st k d) (fun t ht => hund t (by simp [ht])) htail hdis',
      keysUnder_setKey dir k d hk st hkst]
    simp

theorem normalizePath_append (a b : Str) :
    normalizePath (a ++ b) = normalizePath a ++ normalizePath b :=
  List.map_append _ _ _

theorem normalizePath_of_not_mem {s : Str} (h : '\\' ∉ s) : normalizePath s = s := by
  induction s with
  | nil => rfl
  | cons c s ih =>
    simp only [List.mem_cons] at h
    push_neg at h
    have hc : normChar c = c := by
      have hne : ¬(c = '\\') := fun hh => h.1 hh.symm
      simp [normChar, hne]
    simp [normalizePath] at ih ⊢
    exact ⟨hc, ih h.2⟩

theorem normalizePath_sepOf (windows : Bool) :
    normalizePath (sepOf windows) = ['/'] := by
  cases windows <;> rfl

theorem normalizePath_joinSegs (windows : Bool) :
    ∀ segs : List Str, (∀ s ∈ segs, '\\' ∉ s) →
      normalizePath (joinSegs (sepOf windows) segs) = joinSegs ['/'] segs := by
  intro segs
  induction segs with
  | nil => intro _; rfl
  | cons s rest ih =>
    intro h
    cases rest with
    | nil => exact normalizePath_of_not_mem (h s (by simp))
    | cons t r =>
      have h1 : '\\' ∉ s := h s (by simp)
      have h2 := ih (fun x hx => h x (by simp [hx]))
      calc normalizePath (joinSegs (sepOf windows) (s :: t :: r))
          = normalizePath s ++ normalizePath (sepOf windows)
              ++ normalizePath (joinSegs (sepOf windows) (t :: r)) := by
            simp [joinSegs, normalizePath_append]
        _ = s ++ ['/'] ++ joinSegs ['/'] (t :: r) := by
            rw [normalizePath_of_not_mem h1, normalizePath_sepOf, h2]
        _ = joinSegs ['/'] (s :: t :: r) := by simp [joinSegs]

theorem normalizePath_fullPath (windows : Bool) (root : Str) (rel : List Str)
    (hroot : '\\' ∉ root) (hrel : ∀ s ∈ rel, '\\' ∉ s) :
    normalizePath (fullPath windows root rel) = root ++ '/' :: joinSegs ['/'] rel := by
  simp only [fullPath, normalizePath_append, normalizePath_of_not_mem hroot,
    normalizePath_sepOf, normalizePath_joinSegs windows rel hrel]
  simp

theorem slash_split : ∀ (s t u v : Str), '/' ∉ s → '/' ∉ t →
    s ++ '/' :: u = t ++ '/' :: v → s = t ∧ u = v := by
  intro s
  induction s with
  | nil =>
    intro t u v _ ht h
    cases t with
    | nil => simpa using h
    | cons c t' =>
      rw [List.nil_append, List.cons_append] at h
      injection h with h1 h2
      exact absurd (by simp [← h1]) ht
  | cons c s' ih =>
    intro t u v hs ht h
    cases t with
    | nil =>
      rw [List.nil_append, List.cons_append] at h
      injection h with h1 h2
      exact absurd (by simp [h1]) hs
    | cons d t' =>
      rw [List.cons_append, List.cons_append] at h
      injection h with h1 h2
      have hs' : '/' ∉ s' := fun hm => hs (by simp [hm])
      have ht' : '/' ∉ t' := fun hm => ht (by simp [hm])
      obtain ⟨hst, huv⟩ := ih t' u v hs' ht' h2
      exact ⟨by rw [h1, hst], huv⟩

theorem joinSegs_slash_inj : ∀ (a b : List Str),
    (∀ s ∈ a, s ≠ [] ∧ '/' ∉ s) → (∀ s ∈ b, s ≠ [] ∧ '/' ∉ s) →
    joinSegs ['/'] a = joinSegs ['/'] b → a = b := by
  intro a
  induction a with
  | nil =>
    intro b _ hb h
    cases b with
    | nil => rfl
    | cons t bs =>
      cases bs with
      | nil => exact absurd h.symm (hb t (by simp)).1
      | cons t' bs' =>
        have hlen := congrArg List.length h
        simp only [joinSegs, List.length_append, List.length_cons, List.length_nil] at hlen
        exact absurd hlen (by omega)
  | cons s as ih =>
    intro b ha hb h
    cases as with
    | nil =>
      cases b with
      | nil => exact absurd h (ha s (by simp)).1
      | cons t bs =>
        cases bs with
        | nil =>
          simp only [joinSegs] at h
          rw [h]
        | cons t' bs' =>
          have : '/' ∈ s := by
            simp only [joinSegs] at h
            rw [h]; simp
          exact absurd this (ha s (by simp)).2
    | cons s' as' =>
      cases b with
      | nil =>
        have hlen := congrArg List.length h
        simp only [joinSegs, List.length_append, List.length_cons, List.length_nil] at hlen
        exact absurd hlen (by omega)
      | cons t bs =>
        cases bs with
        | nil =>
          have : '/' ∈ t := by
            simp only [joinSegs] at h
            rw [← h]; simp
          exact absurd this (hb t (by simp)).2
        | cons t' bs' =>
          have hs : '/' ∉ s := (ha s (by simp)).2
          have ht : '/' ∉ t := (hb t (by simp)).2
          have h' : s ++ '/' :: joinSegs ['/'] (s' :: as')
              = t ++ '/' :: joinSegs ['/'] (t' :: bs') := by
            simpa [joinSegs] using h
          obtain ⟨h1, h2⟩ := slash_split s t _ _ hs ht h'
          have h3 := ih (t' :: bs') (fun x hx => ha x (by simp [hx]))
            (fun x hx => hb x (by simp [hx])) h2
          rw [h1, h3]

theorem beginsWith_append (p : Str) : ∀ t : Str, beginsWith p (p ++ t) = true := by
  induction p with
  | nil => intro t; rfl
  | cons c p ih => intro t; simp [beginsWith, ih]

theorem isUnder_cons_key (dir x : Str) : isUnder dir (dir ++ '/' :: x) = true := by
  have h : dir ++ '/' :: x = (dir ++ ['/']) ++ x := by simp
  rw [isUnder, h, beginsWith_append]
  simp

theorem pushLoop_ok (w : World) (files : List (OsPath × Bytes))
    (h : ∀ f ∈ files, f.1.valid = true ∧ w.read f.1.repr = .ok f.2) :
    ∀ u, pushLoop w u (files.map Prod.fst) =
      (.ok ⟨u.handles ++ files.map handleOf⟩,
       files.flatMap
         (fun f => [Ev.readLocal f.1.repr, Ev.spawnUpload (normalizePath f.1.repr)])) := by
  induction files with
  | nil => intro u; simp [pushLoop]
  | cons f fs ih =>
    intro u
    obtain ⟨hv, hr⟩ := h f (by simp)
    have hfs : ∀ g ∈ fs, g.1.valid = true ∧ w.read g.1.repr = .ok g.2 :=
      fun g hg => h g (by simp [hg])
    have hi := ih hfs ⟨u.handles ++ [(normalizePath f.1.repr, f.2)]⟩
    simp [pushLoop, push_path, OsPath.toStr, hv, push_single_file, hr, hi, handleOf]

theorem runHandles_ok (w : World) (hw : ∀ k d, w.write k d = .ok ()) :
    ∀ (hs : List (Str × Bytes)) (st : Storage),
      runHandles w st hs =
        (applyWrites st hs, hs.map (fun _ => Res.ok ()),
         hs.map (fun t => Ev.remoteWrite t.1)) := by
  intro hs
  induction hs with
  | nil => intro st; rfl
  | cons t rest ih =>
    intro st
    obtain ⟨k, d⟩ := t
    simp [runHandles, hw k d, ih, applyWrites]

theorem sync_dir_ok (w : World) (st : Storage) (dir : Str)
    (files : List (OsPath × Bytes))
    (henum : w.enum = .ok (files.map Prod.fst))
    (hfiles : ∀ f ∈ files, f.1.valid = true ∧ w.read f.1.repr = .ok f.2)
    (hrm : w.removeAll = .ok ())
    (hw : ∀ k d, w.write k d = .ok ()) :
    (sync_dir w st dir).result = .ok files.length ∧
    (sync_dir w st dir).storage = applyWrites (removeUnder dir st) (files.map handleOf) := by
  have hp := pushLoop_ok w files hfiles ⟨[]⟩
  have hr := runHandles_ok w hw (files.map handleOf) (removeUnder dir st)
  have hall : ∀ x ∈ ((files.map handleOf).map (fun _ => Res.ok ())).map
      HandleOutcome.completed, x = HandleOutcome.completed (.ok ()) := by
    intro x hx
    rcases List.mem_map.1 hx with ⟨r, hr2, rfl⟩
    rcases List.mem_map.1 hr2 with ⟨t, _, rfl⟩
    rfl
  have hjoin : join (((files.map handleOf).map (fun _ => Res.ok ())).map
      HandleOutcome.completed) = .ok files.length := by
    rw [join_all_ok _ hall]
    simp
  have hp' : pushLoop w ⟨[]⟩ (files.map Prod.fst) =
      (.ok ⟨files.map handleOf⟩,
       files.flatMap
         (fun f => [Ev.readLocal f.1.repr, Ev.spawnUpload (normalizePath f.1.repr)])) := by
    simpa using hp
  constructor
  · simp only [sync_dir, henum, hrm, hp']
    rw [hr]
    exact hjoin
  · simp only [sync_dir, henum, hrm, hp']
    rw [hr]

/-- Claim C2: after a successful mirror of a local tree with N regular
files, the remote prefix contains exactly N distinct objects; each file's
object key is the enumerated path — the walk root (which `sync_dir` also
uses as the remote prefix) joined with the file's root-relative path — with
path separators normalized to forward slashes, so that within the prefix
each object is addressed exactly by the file's root-relative
`/`-normalized path. -/
theorem sync_dir_mirror_completeness (windows : Bool) (dir : Str)
    (tree : List (List Str × Bytes)) (w : World) (st : Storage)
    (hdir : '\\' ∉ dir)
    (htree : ∀ f ∈ tree, f.1 ≠ [] ∧ ∀ s ∈ f.1, s ≠ [] ∧ '/' ∉ s ∧ '\\' ∉ s)
    (hnodup : (tree.map Prod.fst).Nodup)
    (henum : w.enum = .ok (tree.map fun f => OsPath.mk true (fullPath windows dir f.1)))
    (hread : ∀ f ∈ tree, w.read (fullPath windows dir f.1) = .ok f.2)
    (hrm : w.removeAll = .ok ())
    (hw : ∀ k d, w.write k d = .ok ()) :
    (sync_dir w st dir).result = .ok tree.length ∧
    keysUnder dir (sync_dir w st dir).storage =
      tree.map (fun f => dir ++ '/' :: joinSegs ['/'] f.1) ∧
    (keysUnder dir (sync_dir w st dir).storage).Nodup := by
  set files : List (OsPath × Bytes) :=
    tree.map (fun f => (OsPath.mk true (fullPath windows dir f.1), f.2)) with hfilesdef
  have henum' : w.enum = .ok (files.map Prod.fst) := by
    rw [henum, hfilesdef, List.map_map]
    rfl
  have hfiles : ∀ f ∈ files, f.1.valid = true ∧ w.read f.1.repr = .ok f.2 := by
    intro f hf
    rw [hfilesdef] at hf
    rcases List.mem_map.1 hf with ⟨t, ht, rfl⟩
    exact ⟨rfl, hread t ht⟩
  obtain ⟨hres, hsto⟩ := sync_dir_ok w st dir files henum' hfiles hrm hw
  have hkeyeq : files.map handleOf =
      tree.map (fun f => (dir ++ '/' :: joinSegs ['/'] f.1, f.2)) := by
    rw [hfilesdef, List.map_map]
    apply List.map_congr_left
    intro t ht
    have hseg : ∀ s ∈ t.1, '\\' ∉ s := fun s hs => ((htree t ht).2 s hs).2.2
    simp [Function.comp, handleOf,
      normalizePath_fullPath windows dir t.1 hdir hseg]
  have hW : ∀ t ∈ files.map handleOf, isUnder dir t.1 = true := by
    rw [hkeyeq]
    intro t ht
    rcases List.mem_map.1 ht with ⟨f, _, rfl⟩
    exact isUnder_cons_key dir _
  have hwf : ∀ rel ∈ tree.map Prod.fst, ∀ s ∈ rel, s ≠ [] ∧ '/' ∉ s := by
    intro rel hrel s hs
    rcases List.mem_map.1 hrel with ⟨t, ht, rfl⟩
    exact ⟨((htree t ht).2 s hs).1, ((htree t ht).2 s hs).2.1⟩
  have hkeysnd : ((tree.map Prod.fst).map
      (fun rel => dir ++ '/' :: joinSegs ['/'] rel)).Nodup := by
    refine List.Nodup.map_on ?_ hnodup
    intro x hx y hy hxy
    have h1 : '/' :: joinSegs ['/'] x = '/' :: joinSegs ['/'] y :=
      List.append_cancel_left hxy
    have h2 : joinSegs ['/'] x = joinSegs ['/'] y := by simpa using h1
    exact joinSegs_slash_inj x y (hwf x hx) (hwf y hy) h2
  have hcomp : Prod.fst ∘ (fun f : List Str × Bytes =>
      (dir ++ '/' :: joinSegs ['/'] f.1, f.2))
      = (fun rel => dir ++ '/' :: joinSegs ['/'] rel) ∘ Prod.fst := rfl
  have hWnodup : ((files.map handleOf).map Prod.fst).Nodup := by
    rw [hkeyeq, List.map_map, hcomp, ← List.map_map]
    exact hkeysnd
  have hWdis : ∀ t ∈ files.map handleOf, t.1 ∉ (removeUnder dir st).map Prod.fst :=
    fun t ht => not_mem_fst_removeUnder dir t.1 (hW t ht) st
  have hkeys := keysUnder_applyWrites dir (files.map handleOf)
    (removeUnder dir st) hW hWnodup hWdis
  rw [keysUnder_removeUnder dir st] at hkeys
  refine ⟨?_, ?_, ?_⟩
  · rw [hres, hfilesdef]
    simp
  · rw [hsto, hkeys, List.nil_append, hkeyeq, List.map_map, hcomp]
    rfl
  · rw [hsto, hkeys, List.nil_append, hkeyeq, List.map_map, hcomp, ← List.map_map]
    exact hkeysnd

/-- Mirroring the two-file demo tree over a stale prefix yields exactly the
two expected keys under `site`, and a count of 2. -/
theorem sync_dir_mirror_completeness_witness :
    (sync_dir wMirror stDemo "site".data).result = .ok 2 ∧
    keysUnder "site".data (sync_dir wMirror stDemo "site".data).storage =
      ["site/index.html".data, "site/img/logo.png".data] ∧
    (keysUnder "site".data (sync_dir wMirror stDemo "site".data).storage).Nodup :=
  sync_dir_mirror_completeness false "site".data treeDemo wMirror stDemo
    (by decide) (by decide) (by decide) (by decide) (by decide) rfl
    (fun _ _ => rfl)

/-- Claim C7: mirroring is idempotent — with an unchanged local tree (one
fixed world whose enumeration, reads, wipe and writes all succeed), running
`sync_dir` a second time on the storage produced by the first run returns
the same result and leaves the remote state observably identical (the same
content at every key), the accessor's write being an idempotent
overwrite. -/
theorem sync_dir_idempotent (w : World) (st : Storage) (dir : Str)
    (files : List (OsPath × Bytes))
    (henum : w.enum = .ok (files.map Prod.fst))
    (hfiles : ∀ f ∈ files, f.1.valid = true ∧ w.read f.1.repr = .ok f.2)
    (hrm : w.removeAll = .ok ())
    (hw : ∀ k d, w.write k d = .ok ()) :
    (sync_dir w (sync_dir w st dir).storage dir).result = (sync_dir w st dir).result ∧
    ∀ k, getKey (sync_dir w (sync_dir w st dir).storage dir).storage k =
      getKey (sync_dir w st dir).storage k := by
  obtain ⟨hres1, hsto1⟩ := sync_dir_ok w st dir files henum hfiles hrm hw
  obtain ⟨hres2, hsto2⟩ :=
    sync_dir_ok w (sync_dir w st dir).storage dir files henum hfiles hrm hw
  refine ⟨by rw [hres1, hres2], ?_⟩
  intro k
  rw [hsto2, hsto1, getKey_applyWrites, getKey_applyWrites]
  cases hl : lastVal (files.map handleOf) k with
  | some v => simp [orElseOpt]
  | none =>
    simp only [orElseOpt]
    rw [getKey_removeUnder, getKey_removeUnder]
    by_cases hu : isUnder dir k
    · simp [hu]
    · simp only [hu, Bool.false_eq_true, if_false]
      rw [getKey_applyWrites, hl]
      simp only [orElseOpt]
      rw [getKey_removeUnder]
      simp [hu]

/-- Running the demo mirror twice returns the same count and the same
observable content at the index key. -/
theorem sync_dir_idempotent_witness :
    (sync_dir wMirror ((sync_dir wMirror stDemo "site".data).storage) "site".data).result
      = (sync_dir wMirror stDemo "site".data).result ∧
    getKey (sync_dir wMirror ((sync_dir wMirror stDemo "site".data).storage)
        "site".data).storage "site/index.html".data
      = getKey (sync_dir wMirror stDemo "site".data).storage "site/index.html".data :=
  ⟨(sync_dir_idempotent wMirror stDemo "site".data
      [(⟨true, "site/index.html".data⟩, [1]), (⟨true, "site/img/logo.png".data⟩, [2])]
      rfl (by decide) rfl (fun _ _ => rfl)).1,
   (sync_dir_idempotent wMirror stDemo "site".data
      [(⟨true, "site/index.html".data⟩, [1]), (⟨true, "site/img/logo.png".data⟩, [2])]
      rfl (by decide) rfl (fun _ _ => rfl)).2 "site/index.html".data⟩
